import Mathlib

/-!
Verification of the Interlaced-Pixel core logging/JSON specification.

The JSON value helpers are shallow embeddings of
`src/include/interlaced_core/json.hpp` (class `interlaced::core::json::JSON`).
C++ `std::string` is modelled as `List Char`; `std::map<std::string,
std::string>` is modelled as an association list sorted strictly by key
(`List.Pairwise` over the lexicographic order `strLt`, matching `std::map`
iteration order and key uniqueness).  Exceptions thrown by `parse` are
modelled by `Option` (`none` = throw).

The logging pipeline itself (`interlaced_core/logging.hpp`) is not part of
the sources at hand; the definitions in namespace `Logging` below are
modelled from the specification text and are marked as such.
-/

namespace JSON

/-- C locale `std::isspace` on the characters relevant here
(space, tab, newline, vertical tab, form feed, carriage return). -/
def isspace (c : Char) : Bool :=
  c == ' ' || c == '\t' || c == '\n' || c == '\x0b' || c == '\x0c' || c == '\r'

/-- C locale `std::isdigit`. -/
def isdigit (c : Char) : Bool :=
  decide (48 ≤ c.toNat) && decide (c.toNat ≤ 57)

/-- json.hpp lines 55-59: `skip_whitespace` advances past whitespace;
here it returns the remaining suffix. -/
def skip_whitespace : List Char → List Char
  | [] => []
  | c :: rest => if isspace c then skip_whitespace rest else c :: rest

/-- json.hpp lines 73-83: the `switch` on the character following a
backslash in `unescape_string`; the default branch keeps both characters. -/
def unescape_pair (c : Char) : List Char :=
  if c = '"' then ['"']
  else if c = '\\' then ['\\']
  else if c = '/' then ['/']
  else if c = 'n' then ['\n']
  else if c = 'r' then ['\r']
  else if c = 't' then ['\t']
  else if c = 'b' then ['\x08']
  else if c = 'f' then ['\x0c']
  else ['\\', c]

/-- json.hpp lines 67-90: `unescape_string`.  A backslash with a following
character consumes both (lines 72-84); a trailing backslash falls into the
plain-copy branch (line 86). -/
def unescape_string : List Char → List Char
  | [] => []
  | [c] => [c]
  | c1 :: c2 :: rest =>
    if c1 = '\\' then unescape_pair c2 ++ unescape_string rest
    else c1 :: unescape_string (c2 :: rest)

/-- json.hpp lines 102-112: the `switch` of `escape_string`, per character. -/
def escape_char (c : Char) : List Char :=
  if c = '"' then ['\\', '"']
  else if c = '\\' then ['\\', '\\']
  else if c = '\n' then ['\\', 'n']
  else if c = '\r' then ['\\', 'r']
  else if c = '\t' then ['\\', 't']
  else if c = '\x08' then ['\\', 'b']
  else if c = '\x0c' then ['\\', 'f']
  else [c]

/-- json.hpp lines 98-115: `escape_string` appends the escape of each
character in order. -/
def escape_string : List Char → List Char
  | [] => []
  | c :: rest => escape_char c ++ escape_string rest

/-- json.hpp lines 125-143: the collection loop of `parse_string`: raw
characters up to the unescaped closing quote, plus the rest of the input;
`none` models the `Unterminated string` exception. -/
def parse_string_raw : List Char → Option (List Char × List Char)
  | [] => none
  | [c] => if c = '"' then some ([], []) else none
  | c :: c2 :: rest =>
    if c = '"' then some ([], c2 :: rest)
    else if c = '\\' then
      (parse_string_raw rest).map (fun p => (c :: c2 :: p.1, p.2))
    else
      (parse_string_raw (c2 :: rest)).map (fun p => (c :: p.1, p.2))

/-- json.hpp lines 125-143: `parse_string` = raw collection followed by
`unescape_string` (line 131). -/
def parse_string (s : List Char) : Option (List Char × List Char) :=
  (parse_string_raw s).map (fun p => (unescape_string p.1, p.2))

/-- A maximal run of digits and the rest: the `while isdigit` loops of
json.hpp lines 161-163, 170-172, 181-183 (and 264-266 etc. in `parse`). -/
def takeDigits : List Char → List Char × List Char
  | [] => ([], [])
  | c :: rest =>
    if isdigit c then
      let p := takeDigits rest
      (c :: p.1, p.2)
    else ([], c :: rest)

/-- One-or-more digits: the `isdigit` check plus digit loop shared by
`is_number` (json.hpp lines 157-163) and the number branch of `parse`
(lines 260-266). -/
def parse_digits : List Char → Option (List Char × List Char)
  | [] => none
  | c :: rest =>
    if isdigit c then
      let p := takeDigits rest
      some (c :: p.1, p.2)
    else none

/-- Optional fraction part: json.hpp lines 165-173 (and 268-276). -/
def parse_frac : List Char → Option (List Char × List Char)
  | [] => some ([], [])
  | c :: rest =>
    if c = '.' then (parse_digits rest).map (fun p => ('.' :: p.1, p.2))
    else some ([], c :: rest)

/-- Optional exponent part: json.hpp lines 175-184 (and 278-289). -/
def parse_exp : List Char → Option (List Char × List Char)
  | [] => some ([], [])
  | c :: rest =>
    if c = 'e' ∨ c = 'E' then
      match rest with
      | [] => none
      | s :: rest2 =>
        if s = '+' ∨ s = '-' then
          (parse_digits rest2).map (fun p => (c :: s :: p.1, p.2))
        else
          (parse_digits rest).map (fun p => (c :: p.1, p.2))
    else some ([], c :: rest)

/-- The complete number token grammar of json.hpp: optional sign (lines
154-155), digits, optional fraction, optional exponent.  Returns the token
and the remaining input; used both by `is_number` and by the number branch
of `parse` (lines 256-291), which implement the same phases. -/
def parse_number (s : List Char) : Option (List Char × List Char) :=
  let sg : List Char × List Char := match s with
    | [] => ([], [])
    | c :: rest => if c = '-' then (['-'], rest) else ([], c :: rest)
  match parse_digits sg.2 with
  | none => none
  | some (d, s2) =>
    match parse_frac s2 with
    | none => none
    | some (f, s3) =>
      match parse_exp s3 with
      | none => none
      | some (e, s4) => some (sg.1 ++ d ++ f ++ e, s4)

/-- json.hpp lines 151-187: `is_number` returns true iff the whole token is
consumed (`i == str.length()`, line 186). -/
def is_number (s : List Char) : Bool :=
  match parse_number s with
  | some (_, rest) => rest.isEmpty
  | none => false

/-- json.hpp lines 293-303: the do/while brace-matching scan for nested
object/array values; consumes characters while the running depth stays
positive.  Returns the consumed raw substring and the rest. -/
def brace_scan (depth : Nat) : List Char → List Char × List Char
  | [] => ([], [])
  | c :: rest =>
    let d2 := if c = '{' ∨ c = '[' then depth + 1
              else if c = '}' ∨ c = ']' then depth - 1
              else depth
    if 0 < d2 then
      let p := brace_scan d2 rest
      (c :: p.1, p.2)
    else ([c], rest)

def tru : List Char := ['t', 'r', 'u', 'e']

def fls : List Char := ['f', 'a', 'l', 's', 'e']

def nul : List Char := ['n', 'u', 'l', 'l']

/-- The `pos + n <= length && substr(pos, n) == w` literal tests of
json.hpp lines 247-255. -/
def lit (w s : List Char) : Bool := s.take w.length == w

/-- json.hpp lines 239-308: the value branch of `parse` — quoted string,
`true`/`false`/`null`, number, raw brace-matched nested structure, or a
thrown `Unexpected character in value` (`none`). -/
def parse_value (s : List Char) : Option (List Char × List Char) :=
  match s with
  | [] => none
  | c :: rest =>
    if c = '"' then parse_string rest
    else if lit tru s then some (tru, s.drop 4)
    else if lit fls s then some (fls, s.drop 5)
    else if lit nul s then some (nul, s.drop 4)
    else if c = '-' ∨ isdigit c then parse_number s
    else if c = '{' ∨ c = '[' then some (brace_scan 0 s)
    else none

/-- Lexicographic strict order on byte strings: `operator<` of
`std::string`, the key order of `std::map<std::string, std::string>`. -/
def strLt : List Char → List Char → Bool
  | [], [] => false
  | [], _ :: _ => true
  | _ :: _, [] => false
  | a :: as, b :: bs =>
    if a.toNat < b.toNat then true
    else if b.toNat < a.toNat then false
    else strLt as bs

/-- `result[key] = value` on the sorted association list modelling
`std::map` (json.hpp line 310): ordered insert, overwriting an equal key. -/
def mapInsert (k v : List Char) : List (List Char × List Char) → List (List Char × List Char)
  | [] => [(k, v)]
  | (k2, v2) :: rest =>
    if strLt k k2 then (k, v) :: (k2, v2) :: rest
    else if k = k2 then (k, v) :: rest
    else (k2, v2) :: mapInsert k v rest

/-- json.hpp lines 220-326: the member loop of `parse`.  Each iteration
reads `"key" : value` and then either `}` (break; trailing input ignored,
line 318-320), `,` (continue), or throws.  Exhausting the input at the
loop head returns the accumulated map (the `while (pos < len)` condition).
The fuel argument only bounds the number of iterations; `parse` passes
enough for any input. -/
def parse_entries : Nat → List (List Char × List Char) → List Char → Option (List (List Char × List Char))
  | 0, _, _ => none
  | _ + 1, acc, [] => some acc
  | fuel + 1, acc, c0 :: s0 =>
    match skip_whitespace (c0 :: s0) with
    | [] => none
    | c1 :: s1 =>
      if c1 = '"' then
        match parse_string s1 with
        | none => none
        | some (key, s2) =>
          match skip_whitespace s2 with
          | [] => none
          | c3 :: s4 =>
            if c3 = ':' then
              match parse_value (skip_whitespace s4) with
              | none => none
              | some (val, s6) =>
                match skip_whitespace s6 with
                | [] => none
                | c7 :: s8 =>
                  if c7 = '}' then some (mapInsert key val acc)
                  else if c7 = ',' then parse_entries fuel (mapInsert key val acc) s8
                  else none
            else none
      else none

/-- json.hpp lines 199-329: `parse`.  Throws (`none`) on empty input or a
missing `{`; returns the empty map early when the first non-space character
after `{` is `}` (lines 216-218) or when the input ends after `{`. -/
def parse (s : List Char) : Option (List (List Char × List Char)) :=
  match s with
  | [] => none
  | _ =>
    match skip_whitespace s with
    | [] => none
    | c1 :: s2 =>
      if c1 = '{' then
        match skip_whitespace s2 with
        | [] => some []
        | c4 :: s5 =>
          if c4 = '}' then some []
          else parse_entries ((c4 :: s5).length + 1) [] (c4 :: s5)
      else none

/-- json.hpp lines 354-361: how `stringify` renders one value — bare for
`true`/`false`/`null`/numbers, verbatim for a non-empty value starting
with `{` or `[`, quoted and escaped otherwise. -/
def stringify_value (v : List Char) : List Char :=
  if v = tru ∨ v = fls ∨ v = nul ∨ is_number v then v
  else if v.head? = some '{' ∨ v.head? = some '[' then v
  else '"' :: escape_string v ++ ['"']

/-- json.hpp lines 345-364: the member loop of `stringify`, with the
`first` comma flag; keys are always quoted and escaped (line 352). -/
def stringify_entries : List (List Char × List Char) → Bool → List Char
  | [], _ => []
  | (k, v) :: rest, first =>
    (if first then [] else [',']) ++
    '"' :: escape_string k ++ ['"', ':'] ++ stringify_value v ++
    stringify_entries rest false

/-- json.hpp lines 338-368: `stringify`. -/
def stringify (m : List (List Char × List Char)) : List Char :=
  if m = [] then ['{', '}']
  else '{' :: stringify_entries m true ++ ['}']

/-- All characters of the list are digits. -/
def allDigits (l : List Char) : Prop := ∀ c ∈ l, isdigit c = true

/-- The list is empty or does not start with a digit. -/
def headNotDigit : List Char → Prop
  | [] => True
  | c :: _ => isdigit c = false

/-- The list is empty or does not start with the character `c`. -/
def headNe (c : Char) : List Char → Prop
  | [] => True
  | d :: _ => d ≠ c

/-- A nonempty all-digit token. -/
def DigTok (d : List Char) : Prop := d ≠ [] ∧ allDigits d

/-- A fraction token: a dot followed by one or more digits. -/
def FracTok (f : List Char) : Prop := ∃ fd, f = '.' :: fd ∧ DigTok fd

/-- An exponent token: `e`/`E`, optional sign, one or more digits. -/
def ExpTok (e : List Char) : Prop :=
  ∃ c sg a, (c = 'e' ∨ c = 'E') ∧ (sg = [] ∨ sg = ['+'] ∨ sg = ['-']) ∧
    e = c :: (sg ++ a) ∧ DigTok a

/-- The value begins with `{` or `[` (the verbatim branch of `stringify`). -/
def bracey (v : List Char) : Bool :=
  v.head? == some '{' || v.head? == some '['

/-- The remaining input begins with `,` or `}`: the only two continuations
after a serialized value inside a serialized object. -/
def sepHead (r : List Char) : Prop :=
  ∃ t, r = ',' :: t ∨ r = '}' :: t

/-- Repeated `result[key] = value` insertion: the accumulation performed
across the iterations of the member loop of `parse`. -/
def insertAll (acc m : List (List Char × List Char)) : List (List Char × List Char) :=
  List.foldl (fun a kv => mapInsert kv.1 kv.2 a) acc m

/-- The keys are strictly increasing: the shape of a `std::map` listed in
iteration order. -/
def sortedKeys (m : List (List Char × List Char)) : Prop :=
  List.Pairwise (fun x y => strLt x.1 y.1 = true) m

end JSON

namespace Logging

/-- Modelled from the spec: `interlaced_core/logging.hpp` is not among the
sources at hand.  Spec §3: "LogLevel: ordered enum {TRACE < DEBUG < INFO <
WARNING < ERROR < FATAL}. Total order defines filtering." -/
inductive LogLevel
  | trace
  | debug
  | info
  | warning
  | error
  | fatal
deriving DecidableEq

/-- Modelled from the spec: the numeric rank realising the §3 total order
TRACE < DEBUG < INFO < WARNING < ERROR < FATAL. -/
def LogLevel.rank : LogLevel → Nat
  | .trace => 0
  | .debug => 1
  | .info => 2
  | .warning => 3
  | .error => 4
  | .fatal => 5

/-- Modelled from the spec: the upper-case level names embedded in
formatted lines (`log_level_to_string` of the missing logging header; the
tests check "DEBUG"/"INFO"/"WARNING"/"ERROR"). -/
def log_level_to_string : LogLevel → List Char
  | .trace => ['T', 'R', 'A', 'C', 'E']
  | .debug => ['D', 'E', 'B', 'U', 'G']
  | .info => ['I', 'N', 'F', 'O']
  | .warning => ['W', 'A', 'R', 'N', 'I', 'N', 'G']
  | .error => ['E', 'R', 'R', 'O', 'R']
  | .fatal => ['F', 'A', 'T', 'A', 'L']

/-- Modelled from the spec §3: the part of `LoggerConfig` the level-filter
claims depend on — the minimum level. -/
structure LoggerConfig where
  min_level : LogLevel

/-- Modelled from the spec §6: the basename-extraction collaborator —
strip every directory component up to the last `/`. -/
def basename (p : List Char) : List Char :=
  p.foldl (fun acc c => if c = '/' then [] else acc ++ [c]) []

/-- Modelled from the spec §4.2: the human-readable formatter assembles
`[prefix] [timestamp] [LEVEL] message (file:line)`, omitting absent
segments cleanly, truncating the file path to its basename.  Timestamp
rendering is abstracted as already-formatted text. -/
def human_format (pfx ts : Option (List Char)) (level : LogLevel)
    (msg : List Char) (file : Option (List Char)) (line : Nat) : List Char :=
  (match pfx with
   | some p => p ++ [' ']
   | none => []) ++
  (match ts with
   | some t => '[' :: t ++ [']', ' ']
   | none => []) ++
  '[' :: log_level_to_string level ++ [']', ' '] ++ msg ++
  (match file with
   | some f => [' ', '('] ++ basename f ++ [':'] ++ Nat.toDigits 10 line ++ [')']
   | none => [])

/-- Modelled from the spec §4.2: the JSON-line formatter emits a single
object with `level`, the JSON-escaped `message`, and — when a source
location is present — the file basename and line, never the full path. -/
def json_format (level : LogLevel) (msg : List Char) (file : Option (List Char))
    (line : Nat) : List Char :=
  ['{', '"', 'l', 'e', 'v', 'e', 'l', '"', ':', '"'] ++ log_level_to_string level ++
  ['"', ',', '"', 'm', 'e', 's', 's', 'a', 'g', 'e', '"', ':', '"'] ++
  JSON.escape_string msg ++ ['"'] ++
  (match file with
   | some f => [',', '"', 'f', 'i', 'l', 'e', '"', ':', '"'] ++
       JSON.escape_string (basename f) ++
       ['"', ',', '"', 'l', 'i', 'n', 'e', '"', ':'] ++ Nat.toDigits 10 line
   | none => []) ++ ['}']

/-- Modelled from the spec §4.1: `log` checks `level < config.min_level`
first; a filtered call is a no-op that performs no formatting (the output
trace is empty), otherwise the line produced by the configured formatter
is emitted. -/
def Logger.log (cfg : LoggerConfig) (level : LogLevel) (msg : List Char) :
    List (List Char) :=
  if level.rank < cfg.min_level.rank then []
  else [human_format none none level msg none 0]

/-- Modelled from the spec §4.1: leveled convenience call, sugar over `log`. -/
def Logger.trace (cfg : LoggerConfig) (msg : List Char) : List (List Char) :=
  Logger.log cfg .trace msg

/-- Modelled from the spec §4.1: leveled convenience call, sugar over `log`. -/
def Logger.debug (cfg : LoggerConfig) (msg : List Char) : List (List Char) :=
  Logger.log cfg .debug msg

/-- Modelled from the spec §4.1: leveled convenience call, sugar over `log`. -/
def Logger.info (cfg : LoggerConfig) (msg : List Char) : List (List Char) :=
  Logger.log cfg .info msg

/-- Modelled from the spec §4.1: leveled convenience call, sugar over `log`. -/
def Logger.warning (cfg : LoggerConfig) (msg : List Char) : List (List Char) :=
  Logger.log cfg .warning msg

/-- Modelled from the spec §4.1: leveled convenience call, sugar over `log`. -/
def Logger.error (cfg : LoggerConfig) (msg : List Char) : List (List Char) :=
  Logger.log cfg .error msg

/-- Modelled from the spec §4.1: leveled convenience call, sugar over `log`. -/
def Logger.fatal (cfg : LoggerConfig) (msg : List Char) : List (List Char) :=
  Logger.log cfg .fatal msg

/-- Modelled from the spec §4.1: positional `{}` interpolation over
already-stringified arguments; placeholders are matched left to right;
unmatched placeholders stay literal (documented leniency). -/
def interpolate : List Char → List (List Char) → List Char
  | [], _ => []
  | [c], _ => [c]
  | c1 :: c2 :: rest, args =>
    if c1 = '{' ∧ c2 = '}' then
      match args with
      | x :: xs => x ++ interpolate rest xs
      | [] => c1 :: c2 :: interpolate rest []
    else c1 :: interpolate (c2 :: rest) args

/-- Whether `pat` occurs as a contiguous substring of the second list. -/
def containsSeq (pat : List Char) : List Char → Bool
  | [] => pat.isEmpty
  | c :: rest => pat.isPrefixOf (c :: rest) || containsSeq pat rest

/-- Modelled from the spec §3/§4.4: the `RotatingFileWriter` state — live
file content (list of lines), rotated backups (index i holds the content
of backup file `base.(i+1)`, most recent first), accumulated byte count,
configured maximum size and retention count, the Degraded flag, and the
lines emitted to the fallback error stream. -/
structure RotState where
  degraded : Bool
  base : List (List Char)
  backups : List (List (List Char))
  bytes : Nat
  maxSize : Nat
  retention : Nat
  fallback : List (List Char)
deriving DecidableEq

/-- Modelled from the spec §7/§4.4: constructing a `RotatingFileLogger`;
when opening the base path fails (unwritable path) the writer starts in
Degraded mode instead of raising to the caller. -/
def RotatingFileLogger.mk (writable : Bool) (maxSize retention : Nat) : RotState :=
  { degraded := !writable
    base := []
    backups := []
    bytes := 0
    maxSize := maxSize
    retention := retention
    fallback := [] }

/-- Modelled from the spec §4.4/§6: rotation shifts the backups
(`base.(N-1)` → `base.N`, ..., `base` → `base.1`), deletes any backup
beyond the retention count N, and reopens `base` fresh with a zeroed byte
counter. -/
def RotState.rotate (s : RotState) : RotState :=
  { s with backups := (s.base :: s.backups).take s.retention
           base := []
           bytes := 0 }

/-- Modelled from the spec §4.4: `write`.  In Degraded mode the line goes
to the fallback error stream.  Otherwise the size trigger is evaluated
before the write — if accumulated bytes plus the line's byte length would
exceed the maximum, rotate first — and then the line is appended to the
live file. -/
def RotState.write (s : RotState) (line : List Char) : RotState :=
  if s.degraded then { s with fallback := s.fallback ++ [line] }
  else
    let s2 := if s.maxSize < s.bytes + line.length then s.rotate else s
    { s2 with base := s2.base ++ [line], bytes := s2.bytes + line.length }

end Logging

section JSONSanity

example : JSON.escape_string ['a', '"', '\n'] = ['a', '\\', '"', '\\', 'n'] := by decide

example : JSON.is_number ['-', '1', '2', '.', '5', 'e', '+', '3'] = true := by decide

example : JSON.is_number ['0', '1'] = true := by decide

example : JSON.is_number ['1', '.'] = false := by decide

example :
    JSON.parse (JSON.stringify [(['k'], ['v'])]) = some [(['k'], ['v'])] := by decide

example :
    JSON.stringify [(['k'], ['{'])] = ['{', '"', 'k', '"', ':', '{', '}'] := by decide

example :
    JSON.parse (JSON.stringify [(['k'], ['{'])]) = none := by decide

example :
    JSON.parse (JSON.stringify [(['k'], ['t', 'r', 'u', 'e'])]) =
      some [(['k'], ['t', 'r', 'u', 'e'])] := by decide

example :
    JSON.parse (JSON.stringify [(['k'], ['4', '2'])]) = some [(['k'], ['4', '2'])] := by decide

example :
    JSON.parse (JSON.stringify [(['k'], ['a', '"', '\\', '\n', 'b'])]) =
      some [(['k'], ['a', '"', '\\', '\n', 'b'])] := by decide

end JSONSanity

namespace JSON

theorem escape_char_spec (c : Char) :
    (escape_char c = [c] ∧ c ≠ '"' ∧ c ≠ '\\') ∨
    (∃ x, escape_char c = ['\\', x] ∧ unescape_pair x = [c]) := by
  by_cases h1 : c = '"'
  · subst h1; exact Or.inr ⟨'"', by decide, by decide⟩
  by_cases h2 : c = '\\'
  · subst h2; exact Or.inr ⟨'\\', by decide, by decide⟩
  by_cases h3 : c = '\n'
  · subst h3; exact Or.inr ⟨'n', by decide, by decide⟩
  by_cases h4 : c = '\r'
  · subst h4; exact Or.inr ⟨'r', by decide, by decide⟩
  by_cases h5 : c = '\t'
  · subst h5; exact Or.inr ⟨'t', by decide, by decide⟩
  by_cases h6 : c = '\x08'
  · subst h6; exact Or.inr ⟨'b', by decide, by decide⟩
  by_cases h7 : c = '\x0c'
  · subst h7; exact Or.inr ⟨'f', by decide, by decide⟩
  exact Or.inl ⟨by simp [escape_char, h1, h2, h3, h4, h5, h6, h7], h1, h2⟩

theorem escape_char_ne_nil (c : Char) : escape_char c ≠ [] := by
  rcases escape_char_spec c with ⟨h, _, _⟩ | ⟨x, h, _⟩ <;> simp [h]

theorem escape_string_eq_nil {s : List Char} (h : escape_string s = []) : s = [] := by
  cases s with
  | nil => rfl
  | cons c cs =>
    simp only [escape_string] at h
    exact absurd (List.append_eq_nil.mp h).1 (escape_char_ne_nil c)

theorem unescape_escape : ∀ s : List Char, unescape_string (escape_string s) = s
  | [] => rfl
  | c :: cs => by
    show unescape_string (escape_char c ++ escape_string cs) = c :: cs
    rcases escape_char_spec c with ⟨h, _, hb⟩ | ⟨x, hx, hux⟩
    · rw [h]
      cases hcs : escape_string cs with
      | nil =>
        rw [escape_string_eq_nil hcs]
        rfl
      | cons d ds =>
        have : unescape_string (c :: d :: ds) = c :: unescape_string (d :: ds) := by
          simp [unescape_string, hb]
        rw [List.singleton_append, this, ← hcs, unescape_escape cs]
    · rw [hx]
      have : unescape_string ('\\' :: x :: escape_string cs) =
          unescape_pair x ++ unescape_string (escape_string cs) := by
        simp [unescape_string]
      rw [List.cons_append, List.cons_append, List.nil_append, this, hux,
        unescape_escape cs, List.singleton_append]

theorem parse_string_raw_escape :
    ∀ (k : List Char) (rest : List Char),
      parse_string_raw (escape_string k ++ '"' :: rest) = some (escape_string k, rest)
  | [], rest => by
    cases rest with
    | nil => rfl
    | cons r rs => rfl
  | c :: cs, rest => by
    show parse_string_raw (escape_char c ++ escape_string cs ++ '"' :: rest) = _
    rcases escape_char_spec c with ⟨h, hq, hb⟩ | ⟨x, hx, _⟩
    · rw [h]
      cases happ : escape_string cs ++ '"' :: rest with
      | nil => exact absurd happ (by simp)
      | cons d ds =>
        have step : parse_string_raw (c :: d :: ds) =
            (parse_string_raw (d :: ds)).map (fun p => (c :: p.1, p.2)) := by
          simp [parse_string_raw, hq, hb]
        rw [List.singleton_append, List.cons_append, happ, step, ← happ,
          parse_string_raw_escape cs rest]
        simp [escape_string, h]
    · rw [hx]
      have step : parse_string_raw ('\\' :: x :: (escape_string cs ++ '"' :: rest)) =
          (parse_string_raw (escape_string cs ++ '"' :: rest)).map
            (fun p => ('\\' :: x :: p.1, p.2)) := by
        simp [parse_string_raw]
      simp only [List.cons_append, List.singleton_append, List.nil_append]
      rw [step, parse_string_raw_escape cs rest]
      simp [escape_string, hx]

theorem parse_string_escape (k rest : List Char) :
    parse_string (escape_string k ++ '"' :: rest) = some (k, rest) := by
  rw [parse_string, parse_string_raw_escape k rest]
  simp [unescape_escape]

theorem takeDigits_split : ∀ s : List Char, (takeDigits s).1 ++ (takeDigits s).2 = s
  | [] => rfl
  | c :: rest => by
    by_cases h : isdigit c = true
    · simp only [takeDigits, h, if_true, List.cons_append]
      rw [takeDigits_split rest]
    · simp [takeDigits, h]

theorem takeDigits_digits : ∀ s : List Char, allDigits (takeDigits s).1
  | [] => by simp [takeDigits, allDigits]
  | c :: rest => by
    by_cases h : isdigit c = true
    · simp only [takeDigits, h, if_true]
      intro d hd
      rcases List.mem_cons.mp hd with h1 | h1
      · exact h1 ▸ h
      · exact takeDigits_digits rest d h1
    · simp [takeDigits, h, allDigits]

theorem takeDigits_stop : ∀ s : List Char, headNotDigit (takeDigits s).2
  | [] => by simp [takeDigits, headNotDigit]
  | c :: rest => by
    by_cases h : isdigit c = true
    · simp only [takeDigits, h, if_true]
      exact takeDigits_stop rest
    · simp [takeDigits, h, headNotDigit]

theorem takeDigits_append : ∀ (ds r : List Char), allDigits ds → headNotDigit r →
    takeDigits (ds ++ r) = (ds, r)
  | [], r, _, hr => by
    cases r with
    | nil => rfl
    | cons c rest =>
      have : isdigit c = false := hr
      simp [takeDigits, this]
  | d :: ds, r, hds, hr => by
    have hd : isdigit d = true := hds d (List.mem_cons_self d ds)
    simp only [List.cons_append, takeDigits, hd, if_true, List.append_eq]
    rw [takeDigits_append ds r (fun c hc => hds c (List.mem_cons_of_mem d hc)) hr]

theorem parse_digits_inv {s d b : List Char} (h : parse_digits s = some (d, b)) :
    s = d ++ b ∧ DigTok d ∧ headNotDigit b := by
  cases s with
  | nil => simp [parse_digits] at h
  | cons c rest =>
    by_cases hc : isdigit c = true
    · simp only [parse_digits, hc, if_true, Option.some.injEq, Prod.mk.injEq] at h
      obtain ⟨h1, h2⟩ := h
      subst h1; subst h2
      refine ⟨by rw [List.cons_append, takeDigits_split rest], ⟨by simp, ?_⟩, takeDigits_stop rest⟩
      intro x hx
      rcases List.mem_cons.mp hx with h1 | h1
      · exact h1 ▸ hc
      · exact takeDigits_digits rest x h1
    · simp [parse_digits, hc] at h

theorem parse_digits_replay {d : List Char} (hd : DigTok d) (r : List Char)
    (hr : headNotDigit r) : parse_digits (d ++ r) = some (d, r) := by
  obtain ⟨hne, hall⟩ := hd
  cases d with
  | nil => exact absurd rfl hne
  | cons c ds =>
    have hc : isdigit c = true := hall c (List.mem_cons_self c ds)
    simp only [List.cons_append, parse_digits, hc, if_true]
    rw [takeDigits_append ds r (fun x hx => hall x (List.mem_cons_of_mem c hx)) hr]

theorem parse_frac_inv {s f b : List Char} (h : parse_frac s = some (f, b)) :
    s = f ++ b ∧ (f = [] ∧ b = s ∨ FracTok f ∧ headNotDigit b) := by
  cases s with
  | nil =>
    simp only [parse_frac, Option.some.injEq, Prod.mk.injEq] at h
    obtain ⟨h1, h2⟩ := h
    subst h1; subst h2
    exact ⟨rfl, Or.inl ⟨rfl, rfl⟩⟩
  | cons c rest =>
    by_cases hc : c = '.'
    · subst hc
      cases hpd : parse_digits rest with
      | none => simp [parse_frac, hpd] at h
      | some p =>
        obtain ⟨a, b2⟩ := p
        simp only [parse_frac, if_true, hpd, Option.map_some', Option.some.injEq,
          Prod.mk.injEq] at h
        obtain ⟨h1, h2⟩ := h
        subst h1; subst h2
        obtain ⟨hsp, hdt, hnd⟩ := parse_digits_inv hpd
        exact ⟨by rw [List.cons_append, ← hsp], Or.inr ⟨⟨a, rfl, hdt⟩, hnd⟩⟩
    · simp only [parse_frac, if_neg hc, Option.some.injEq, Prod.mk.injEq] at h
      obtain ⟨h1, h2⟩ := h
      subst h1; subst h2
      exact ⟨rfl, Or.inl ⟨rfl, rfl⟩⟩

theorem parse_frac_replay_nil (r : List Char) (hr : headNe '.' r) :
    parse_frac r = some ([], r) := by
  cases r with
  | nil => rfl
  | cons c rest =>
    have hc : c ≠ '.' := hr
    simp [parse_frac, hc]

theorem parse_frac_replay {f : List Char} (hf : FracTok f) (r : List Char)
    (hr : headNotDigit r) : parse_frac (f ++ r) = some (f, r) := by
  obtain ⟨fd, hfe, hdt⟩ := hf
  subst hfe
  simp only [List.cons_append, parse_frac, if_true]
  rw [parse_digits_replay hdt r hr]
  rfl

theorem parse_exp_inv {s e b : List Char} (h : parse_exp s = some (e, b)) :
    s = e ++ b ∧ (e = [] ∧ b = s ∨ ExpTok e ∧ headNotDigit b) := by
  cases s with
  | nil =>
    simp only [parse_exp, Option.some.injEq, Prod.mk.injEq] at h
    obtain ⟨h1, h2⟩ := h
    subst h1; subst h2
    exact ⟨rfl, Or.inl ⟨rfl, rfl⟩⟩
  | cons c rest =>
    by_cases hc : c = 'e' ∨ c = 'E'
    · simp only [parse_exp, hc, if_true] at h
      cases rest with
      | nil => simp at h
      | cons s2 rest2 =>
        by_cases hs : s2 = '+' ∨ s2 = '-'
        · simp only [hs, if_true, Option.map_eq_some'] at h
          obtain ⟨⟨a, b2⟩, hpd, heq⟩ := h
          simp only [Prod.mk.injEq] at heq
          obtain ⟨h1, h2⟩ := heq
          subst h1; subst h2
          obtain ⟨hsp, hdt, hnd⟩ := parse_digits_inv hpd
          refine ⟨by simp [hsp], Or.inr ⟨⟨c, [s2], a, hc, ?_, by simp, hdt⟩, hnd⟩⟩
          rcases hs with h | h
          · exact Or.inr (Or.inl (by rw [h]))
          · exact Or.inr (Or.inr (by rw [h]))
        · simp only [hs, if_false, Option.map_eq_some'] at h
          obtain ⟨⟨a, b2⟩, hpd, heq⟩ := h
          simp only [Prod.mk.injEq] at heq
          obtain ⟨h1, h2⟩ := heq
          subst h1; subst h2
          obtain ⟨hsp, hdt, hnd⟩ := parse_digits_inv hpd
          exact ⟨by simp [hsp], Or.inr ⟨⟨c, [], a, hc, Or.inl rfl, by simp, hdt⟩, hnd⟩⟩
    · simp only [parse_exp, hc, if_false, Option.some.injEq, Prod.mk.injEq] at h
      obtain ⟨h1, h2⟩ := h
      subst h1; subst h2
      exact ⟨rfl, Or.inl ⟨rfl, rfl⟩⟩

theorem parse_exp_replay_nil (r : List Char) (hr1 : headNe 'e' r) (hr2 : headNe 'E' r) :
    parse_exp r = some ([], r) := by
  cases r with
  | nil => rfl
  | cons c rest =>
    have hc : ¬(c = 'e' ∨ c = 'E') := by
      rintro (h | h)
      · exact hr1 h
      · exact hr2 h
    simp [parse_exp, hc]

theorem parse_exp_replay {e : List Char} (he : ExpTok e) (r : List Char)
    (hr : headNotDigit r) : parse_exp (e ++ r) = some (e, r) := by
  obtain ⟨c, sg, a, hc, hsg, hee, hdt⟩ := he
  subst hee
  rcases hsg with h | h | h
  · subst h
    simp only [List.nil_append, List.cons_append, parse_exp, hc, if_true]
    obtain ⟨hne, hall⟩ := hdt
    cases a with
    | nil => exact absurd rfl hne
    | cons d ds =>
      have hd : isdigit d = true := hall d (List.mem_cons_self d ds)
      have hds : ¬(d = '+' ∨ d = '-') := by
        rintro (h | h) <;> subst h <;> simp [isdigit] at hd
      simp only [List.cons_append, hds, if_false]
      rw [show d :: (ds ++ r) = (d :: ds) ++ r from rfl,
        parse_digits_replay ⟨hne, hall⟩ r hr]
      rfl
  · subst h
    simp only [List.cons_append, List.singleton_append, List.nil_append, parse_exp, hc,
      if_true, true_or, or_true]
    rw [parse_digits_replay hdt r hr]
    rfl
  · subst h
    simp only [List.cons_append, List.singleton_append, List.nil_append, parse_exp, hc,
      if_true, true_or, or_true]
    rw [parse_digits_replay hdt r hr]
    rfl

theorem isdigit_toNat {c : Char} (h : isdigit c = true) : 48 ≤ c.toNat ∧ c.toNat ≤ 57 := by
  simpa [isdigit, Bool.and_eq_true, decide_eq_true_eq] using h

theorem isdigit_of_toNat {c : Char} (h1 : 48 ≤ c.toNat) (h2 : c.toNat ≤ 57) :
    isdigit c = true := by
  simp [isdigit, decide_eq_true_eq, h1, h2]

theorem isdigit_ne {c : Char} (h : isdigit c = true) (x : Char) (hx : x.toNat < 48 ∨ 57 < x.toNat) :
    c ≠ x := by
  intro heq
  subst heq
  obtain ⟨h1, h2⟩ := isdigit_toNat h
  omega

theorem isspace_cases {c : Char} (h : isspace c = true) :
    c = ' ' ∨ c = '\t' ∨ c = '\n' ∨ c = '\x0b' ∨ c = '\x0c' ∨ c = '\r' := by
  have h2 : ((((c = ' ' ∨ c = '\t') ∨ c = '\n') ∨ c = '\x0b') ∨ c = '\x0c') ∨ c = '\r' := by
    simpa [isspace, Bool.or_eq_true, beq_iff_eq] using h
  tauto

theorem isdigit_not_space {c : Char} (h : isdigit c = true) : isspace c = false := by
  by_contra hsp
  have hsp2 : isspace c = true := by
    cases hcs : isspace c with
    | false => exact absurd hcs hsp
    | true => rfl
  rcases isspace_cases hsp2 with h3 | h3 | h3 | h3 | h3 | h3 <;>
    (subst h3; exact absurd h (by decide))

theorem parse_number_inv {s t r : List Char} (h : parse_number s = some (t, r)) :
    s = t ++ r ∧ ∃ sg d f e, (sg = [] ∨ sg = ['-']) ∧ t = sg ++ d ++ f ++ e ∧
      DigTok d ∧ (f = [] ∨ FracTok f) ∧ (e = [] ∨ ExpTok e) := by
  cases s with
  | nil => simp [parse_number, parse_digits] at h
  | cons c rest =>
    by_cases hc : c = '-'
    · subst hc
      simp only [parse_number, if_true] at h
      cases h1 : parse_digits rest with
      | none => simp [h1] at h
      | some p1 =>
        obtain ⟨d, s2⟩ := p1
        simp only [h1] at h
        cases h2 : parse_frac s2 with
        | none => simp [h2] at h
        | some p2 =>
          obtain ⟨f, s3⟩ := p2
          simp only [h2] at h
          cases h3 : parse_exp s3 with
          | none => simp [h3] at h
          | some p3 =>
            obtain ⟨e, s4⟩ := p3
            simp only [h3] at h
            simp only [Option.some.injEq, Prod.mk.injEq] at h
            obtain ⟨ht, hr⟩ := h
            subst hr
            obtain ⟨hsp1, hd, _⟩ := parse_digits_inv h1
            obtain ⟨hsp2, hf⟩ := parse_frac_inv h2
            obtain ⟨hsp3, he⟩ := parse_exp_inv h3
            refine ⟨?_, ['-'], d, f, e, Or.inr rfl, ht.symm, hd, ?_, ?_⟩
            · rw [← ht, hsp1, hsp2, hsp3]; simp
            · rcases hf with ⟨h4, _⟩ | ⟨h4, _⟩
              · exact Or.inl h4
              · exact Or.inr h4
            · rcases he with ⟨h4, _⟩ | ⟨h4, _⟩
              · exact Or.inl h4
              · exact Or.inr h4
    · have hsg : parse_number (c :: rest) =
          (match parse_digits (c :: rest) with
          | none => none
          | some (d, s2) =>
            match parse_frac s2 with
            | none => none
            | some (f, s3) =>
              match parse_exp s3 with
              | none => none
              | some (e, s4) => some (([] : List Char) ++ d ++ f ++ e, s4)) := by
        simp only [parse_number, if_neg hc]
      rw [hsg] at h
      cases h1 : parse_digits (c :: rest) with
      | none => simp [h1] at h
      | some p1 =>
        obtain ⟨d, s2⟩ := p1
        simp only [h1] at h
        cases h2 : parse_frac s2 with
        | none => simp [h2] at h
        | some p2 =>
          obtain ⟨f, s3⟩ := p2
          simp only [h2] at h
          cases h3 : parse_exp s3 with
          | none => simp [h3] at h
          | some p3 =>
            obtain ⟨e, s4⟩ := p3
            simp only [h3] at h
            simp only [Option.some.injEq, Prod.mk.injEq] at h
            obtain ⟨ht, hr⟩ := h
            subst hr
            obtain ⟨hsp1, hd, _⟩ := parse_digits_inv h1
            obtain ⟨hsp2, hf⟩ := parse_frac_inv h2
            obtain ⟨hsp3, he⟩ := parse_exp_inv h3
            refine ⟨?_, [], d, f, e, Or.inl rfl, ht.symm, hd, ?_, ?_⟩
            · rw [← ht, hsp1, hsp2, hsp3]; simp
            · rcases hf with ⟨h4, _⟩ | ⟨h4, _⟩
              · exact Or.inl h4
              · exact Or.inr h4
            · rcases he with ⟨h4, _⟩ | ⟨h4, _⟩
              · exact Or.inl h4
              · exact Or.inr h4

theorem parse_number_replay {v r : List Char} (h : parse_number v = some (v, []))
    (hr1 : headNotDigit r) (hr2 : headNe '.' r) (hr3 : headNe 'e' r) (hr4 : headNe 'E' r) :
    parse_number (v ++ r) = some (v, r) := by
  obtain ⟨_, sg, d, f, e, hsg, ht, hd, hf, he⟩ := parse_number_inv h
  have hexp : parse_exp (e ++ r) = some (e, r) := by
    rcases he with h1 | h1
    · subst h1; simpa using parse_exp_replay_nil r hr3 hr4
    · exact parse_exp_replay h1 r hr1
  have hend : headNotDigit (e ++ r) := by
    rcases he with h1 | h1
    · subst h1; simpa using hr1
    · obtain ⟨c, sg2, a, hc, _, hee, _⟩ := h1
      subst hee
      rcases hc with h2 | h2
      · subst h2; exact (by decide : isdigit 'e' = false)
      · subst h2; exact (by decide : isdigit 'E' = false)
  have hfrac : parse_frac (f ++ (e ++ r)) = some (f, e ++ r) := by
    rcases hf with h1 | h1
    · subst h1
      refine parse_frac_replay_nil _ ?_
      rcases he with h2 | h2
      · subst h2; simpa using hr2
      · obtain ⟨c, sg2, a, hc, _, hee, _⟩ := h2
        subst hee
        rcases hc with h3 | h3
        · subst h3; exact (by decide : ¬('e' = '.'))
        · subst h3; exact (by decide : ¬('E' = '.'))
    · exact parse_frac_replay h1 _ hend
  have hfd : headNotDigit (f ++ (e ++ r)) := by
    rcases hf with h1 | h1
    · subst h1; simpa using hend
    · obtain ⟨fd, hfe, _⟩ := h1
      subst hfe
      exact (by decide : isdigit '.' = false)
  have hdig : parse_digits (d ++ (f ++ (e ++ r))) = some (d, f ++ (e ++ r)) :=
    parse_digits_replay hd _ hfd
  rcases hsg with h1 | h1
  · subst h1
    simp only [List.nil_append] at ht
    obtain ⟨hne, hall⟩ := hd
    cases d with
    | nil => exact absurd rfl hne
    | cons dc ds =>
      have hdc : isdigit dc = true := hall dc (List.mem_cons_self dc ds)
      have hdcne : ¬dc = '-' := isdigit_ne hdc '-' (Or.inl (by decide))
      subst ht
      simp only [List.cons_append, List.append_assoc] at hdig ⊢
      simp only [parse_number, if_neg hdcne, hdig, hfrac, hexp, List.nil_append,
        List.cons_append, List.append_assoc]
  · subst h1
    subst ht
    simp only [List.cons_append, List.singleton_append, List.nil_append,
      List.append_assoc] at hdig ⊢
    simp only [parse_number, if_true, hdig, hfrac, hexp, List.cons_append,
      List.singleton_append, List.append_assoc, List.nil_append]

theorem is_number_parse {v : List Char} (h : is_number v = true) :
    parse_number v = some (v, []) := by
  unfold is_number at h
  cases hp : parse_number v with
  | none => rw [hp] at h; simp at h
  | some p =>
    obtain ⟨t, rest⟩ := p
    rw [hp] at h
    simp only [List.isEmpty_iff] at h
    subst h
    obtain ⟨hcat, _⟩ := parse_number_inv hp
    rw [List.append_nil] at hcat
    rw [hcat]

theorem sepHead_facts {r : List Char} (h : sepHead r) :
    headNotDigit r ∧ headNe '.' r ∧ headNe 'e' r ∧ headNe 'E' r := by
  obtain ⟨t, h | h⟩ := h
  · subst h
    exact ⟨(by decide : isdigit ',' = false), (by decide : ¬(',' = '.')),
      (by decide : ¬(',' = 'e')), (by decide : ¬(',' = 'E'))⟩
  · subst h
    exact ⟨(by decide : isdigit '}' = false), (by decide : ¬('}' = '.')),
      (by decide : ¬('}' = 'e')), (by decide : ¬('}' = 'E'))⟩

theorem skip_whitespace_cons {c : Char} (h : isspace c = false) (s : List Char) :
    skip_whitespace (c :: s) = c :: s := by
  simp [skip_whitespace, h]

theorem lit_false {d : Char} {ws : List Char} (c : Char) (hc : ¬c = d) (s : List Char) :
    lit (d :: ws) (c :: s) = false := by
  simp only [lit, List.length_cons, List.take_succ_cons]
  rw [beq_eq_false_iff_ne]
  intro h
  injection h with h1 _
  exact hc h1

theorem parse_value_replay {v r : List Char} (hb : bracey v = false) (hr : sepHead r) :
    parse_value (skip_whitespace (stringify_value v ++ r)) = some (v, r) := by
  obtain ⟨hnd, hdot, hex, hEx⟩ := sepHead_facts hr
  by_cases hprim : v = tru ∨ v = fls ∨ v = nul ∨ is_number v = true
  · have hsv : stringify_value v = v := by rw [stringify_value, if_pos hprim]
    rw [hsv]
    rcases hprim with h1 | h1 | h1 | h1
    · subst h1; rfl
    · subst h1; rfl
    · subst h1; rfl
    · have hpn := is_number_parse h1
      have hshape : ∃ c tail, v = c :: tail ∧ isspace c = false ∧ ¬c = '"' ∧
          ¬c = 't' ∧ ¬c = 'f' ∧ ¬c = 'n' ∧ (c = '-' ∨ isdigit c = true) := by
        obtain ⟨_, sg, d, f, e, hsg, ht, hd, _, _⟩ := parse_number_inv hpn
        rcases hsg with h2 | h2
        · subst h2
          simp only [List.nil_append] at ht
          obtain ⟨hne, hall⟩ := hd
          cases d with
          | nil => exact absurd rfl hne
          | cons dc ds =>
            have hdc := hall dc (List.mem_cons_self dc ds)
            exact ⟨dc, ds ++ f ++ e, by rw [ht]; simp [List.append_assoc],
              isdigit_not_space hdc, isdigit_ne hdc '"' (Or.inl (by decide)),
              isdigit_ne hdc 't' (Or.inr (by decide)),
              isdigit_ne hdc 'f' (Or.inr (by decide)),
              isdigit_ne hdc 'n' (Or.inr (by decide)), Or.inr hdc⟩
        · subst h2
          exact ⟨'-', d ++ f ++ e, by rw [ht]; simp [List.append_assoc], by decide,
            by decide, by decide, by decide, by decide, Or.inl rfl⟩
      obtain ⟨c, tail, hv, hns, hq, hct, hcf, hcn, hc⟩ := hshape
      have hskip : skip_whitespace (v ++ r) = v ++ r := by
        rw [hv, List.cons_append, skip_whitespace_cons hns]
      rw [hskip]
      have hval : parse_value (v ++ r) = parse_number (v ++ r) := by
        rw [hv, List.cons_append]
        simp only [parse_value, if_neg hq,
          show lit tru (c :: (tail ++ r)) = false from lit_false c hct _,
          show lit fls (c :: (tail ++ r)) = false from lit_false c hcf _,
          show lit nul (c :: (tail ++ r)) = false from lit_false c hcn _,
          Bool.false_eq_true, if_false, if_pos hc, List.cons_append]
      rw [hval, parse_number_replay hpn hnd hdot hex hEx]
  · have hbr : ¬(v.head? = some '{' ∨ v.head? = some '[') := by
      simp only [bracey, Bool.or_eq_false_iff, beq_eq_false_iff_ne] at hb
      rintro (h | h)
      · exact hb.1 h
      · exact hb.2 h
    have hsv : stringify_value v = '"' :: escape_string v ++ ['"'] := by
      rw [stringify_value, if_neg hprim, if_neg hbr]
    rw [hsv]
    have : ('"' :: escape_string v ++ ['"']) ++ r =
        '"' :: (escape_string v ++ ('"' :: r)) := by
      simp [List.append_assoc]
    rw [this, skip_whitespace_cons (by decide)]
    simp only [parse_value, if_pos rfl]
    exact parse_string_escape v r

theorem strLt_irrefl : ∀ a : List Char, strLt a a = false
  | [] => rfl
  | c :: cs => by
    have h : ¬c.toNat < c.toNat := Nat.lt_irrefl _
    simp only [strLt, if_neg h]
    exact strLt_irrefl cs

theorem strLt_asymm : ∀ a b : List Char, strLt a b = true → strLt b a = false
  | [], [], h => by simp [strLt] at h
  | [], _ :: _, _ => rfl
  | _ :: _, [], h => by simp [strLt] at h
  | a :: as, b :: bs, h => by
    by_cases h1 : a.toNat < b.toNat
    · have h2 : ¬b.toNat < a.toNat := by omega
      simp only [strLt, if_neg h2, if_pos h1]
    · by_cases h2 : b.toNat < a.toNat
      · simp only [strLt, if_neg h1, if_pos h2] at h
        exact absurd h (by simp)
      · simp only [strLt, if_neg h1, if_neg h2] at h
        simp only [strLt, if_neg h1, if_neg h2]
        exact strLt_asymm as bs h

theorem mapInsert_append (k v : List Char) :
    ∀ acc : List (List Char × List Char), (∀ kv ∈ acc, strLt kv.1 k = true) →
      mapInsert k v acc = acc ++ [(k, v)]
  | [], _ => rfl
  | (k2, v2) :: rest, h => by
    have h2 : strLt k2 k = true := h (k2, v2) (List.mem_cons_self _ _)
    have h3 : ¬strLt k k2 = true := by simp [strLt_asymm _ _ h2]
    have h4 : ¬k = k2 := by
      intro he
      subst he
      rw [strLt_irrefl] at h2
      exact absurd h2 (by simp)
    simp only [mapInsert, if_neg h3, if_neg h4, List.cons_append]
    rw [mapInsert_append k v rest (fun kv hkv => h kv (List.mem_cons_of_mem _ hkv))]

theorem insertAll_sorted : ∀ (m acc : List (List Char × List Char)),
    sortedKeys m → (∀ a ∈ acc, ∀ b ∈ m, strLt a.1 b.1 = true) →
    insertAll acc m = acc ++ m
  | [], acc, _, _ => by simp [insertAll]
  | (k, v) :: rest, acc, hp, hcross => by
    simp only [insertAll, List.foldl_cons]
    have h1 : mapInsert k v acc = acc ++ [(k, v)] :=
      mapInsert_append k v acc (fun kv hkv => hcross kv hkv (k, v) (List.mem_cons_self _ _))
    have hp2 := List.pairwise_cons.mp hp
    have hrec : insertAll (acc ++ [(k, v)]) rest = (acc ++ [(k, v)]) ++ rest := by
      refine insertAll_sorted rest (acc ++ [(k, v)]) hp2.2 ?_
      intro a ha b hb
      rcases List.mem_append.mp ha with h5 | h5
      · exact hcross a h5 b (List.mem_cons_of_mem _ hb)
      · have : a = (k, v) := List.mem_singleton.mp h5
        subst this
        exact hp2.1 b hb
    rw [show List.foldl (fun a kv => mapInsert kv.1 kv.2 a) (mapInsert k v acc) rest =
      insertAll (mapInsert k v acc) rest from rfl, h1, hrec]
    simp

theorem stringify_entries_length : ∀ (m : List (List Char × List Char)) (b : Bool),
    m.length ≤ (stringify_entries m b).length
  | [], _ => by simp [stringify_entries]
  | (k, v) :: rest, b => by
    have hr := stringify_entries_length rest false
    simp only [stringify_entries, List.length_cons, List.length_append]
    omega

theorem entries_rt : ∀ (m : List (List Char × List Char)) (fuel : Nat)
    (acc : List (List Char × List Char)),
    m ≠ [] → m.length < fuel → (∀ kv ∈ m, bracey kv.2 = false) →
    parse_entries fuel acc (stringify_entries m true ++ ['}']) = some (insertAll acc m)
  | [], _, _, hne, _, _ => absurd rfl hne
  | (_, _) :: _, 0, _, _, hlt, _ => by simp at hlt
  | (k, v) :: rest, fl + 1, acc, _, hlt, hbr => by
    have hbv : bracey v = false := hbr (k, v) (List.mem_cons_self _ _)
    have hsep : sepHead (stringify_entries rest false ++ ['}']) := by
      cases rest with
      | nil => exact ⟨[], Or.inr rfl⟩
      | cons kv2 r2 =>
        obtain ⟨k2, v2⟩ := kv2
        refine ⟨stringify_entries ((k2, v2) :: r2) true ++ ['}'], Or.inl ?_⟩
        simp [stringify_entries]
    have e1 : stringify_entries ((k, v) :: rest) true ++ ['}'] =
        '"' :: (escape_string k ++ ('"' :: (':' :: (stringify_value v ++
          (stringify_entries rest false ++ ['}']))))) := by
      simp [stringify_entries, List.append_assoc]
    rw [e1]
    have h2 : parse_string (escape_string k ++ ('"' :: (':' :: (stringify_value v ++
        (stringify_entries rest false ++ ['}']))))) =
        some (k, ':' :: (stringify_value v ++ (stringify_entries rest false ++ ['}']))) :=
      parse_string_escape k _
    have h3 : parse_value (skip_whitespace (stringify_value v ++
        (stringify_entries rest false ++ ['}']))) =
        some (v, stringify_entries rest false ++ ['}']) :=
      parse_value_replay hbv hsep
    simp only [parse_entries, skip_whitespace_cons (by decide : isspace '"' = false),
      if_pos rfl, h2, skip_whitespace_cons (by decide : isspace ':' = false), h3]
    cases rest with
    | nil =>
      simp [stringify_entries, skip_whitespace_cons (by decide : isspace '}' = false),
        insertAll]
    | cons kv2 r2 =>
      obtain ⟨k2, v2⟩ := kv2
      have e4 : stringify_entries ((k2, v2) :: r2) false ++ ['}'] =
          ',' :: (stringify_entries ((k2, v2) :: r2) true ++ ['}']) := by
        simp [stringify_entries]
      rw [e4]
      simp only [skip_whitespace_cons (by decide : isspace ',' = false)]
      have hlt2 : ((k2, v2) :: r2).length < fl := by
        simp only [List.length_cons] at hlt ⊢
        omega
      rw [entries_rt ((k2, v2) :: r2) fl (mapInsert k v acc) (by simp) hlt2
        (fun kv hkv => hbr kv (List.mem_cons_of_mem _ hkv))]
      simp [insertAll]

theorem is_number_head {v : List Char} (h : is_number v = true) :
    ∃ c t, v = c :: t ∧ (c = '-' ∨ isdigit c = true) := by
  have hpn := is_number_parse h
  obtain ⟨_, sg, d, f, e, hsg, ht, hd, _, _⟩ := parse_number_inv hpn
  rcases hsg with h2 | h2
  · subst h2
    simp only [List.nil_append] at ht
    obtain ⟨hne, hall⟩ := hd
    cases d with
    | nil => exact absurd rfl hne
    | cons dc ds =>
      exact ⟨dc, ds ++ f ++ e, by rw [ht]; simp [List.append_assoc],
        Or.inr (hall dc (List.mem_cons_self dc ds))⟩
  · subst h2
    exact ⟨'-', d ++ f ++ e, by rw [ht]; simp [List.append_assoc], Or.inl rfl⟩

end JSON

namespace JSON

theorem escape_string_eq_join : ∀ s : List Char,
    escape_string s = (s.map escape_char).flatten
  | [] => rfl
  | c :: rest => by
    simp only [escape_string, List.map_cons, List.flatten_cons]
    rw [escape_string_eq_join rest]

theorem stringify_value_brace {c : Char} (rest : List Char) (hc : c = '{' ∨ c = '[') :
    stringify_value (c :: rest) = c :: rest := by
  have hprim : ¬(c :: rest = tru ∨ c :: rest = fls ∨ c :: rest = nul ∨
      is_number (c :: rest) = true) := by
    rintro (h | h | h | h)
    · rcases hc with h2 | h2 <;>
        (subst h2; injection h with h1 _; exact absurd h1 (by decide))
    · rcases hc with h2 | h2 <;>
        (subst h2; injection h with h1 _; exact absurd h1 (by decide))
    · rcases hc with h2 | h2 <;>
        (subst h2; injection h with h1 _; exact absurd h1 (by decide))
    · obtain ⟨c2, t2, hv, hc2⟩ := is_number_head h
      injection hv with h5 _
      subst h5
      rcases hc2 with h6 | h6
      · rcases hc with h2 | h2 <;> (subst h2; exact absurd h6 (by decide))
      · rcases hc with h2 | h2 <;>
          (subst h2; exact absurd h6 (by decide))
  rw [stringify_value, if_neg hprim, if_pos ?_]
  rcases hc with h2 | h2
  · subst h2; exact Or.inl rfl
  · subst h2; exact Or.inr rfl

end JSON

section JSONClaims

/-- C2, counterexample: the claim fails as stated.  For the map
{"k" ↦ "{"} (a value whose first character is `{`), `stringify` emits the
value verbatim, producing `{"k":{}`; feeding that back to `parse` throws
(`none`), so `parse (stringify m)` is not the original map. -/
theorem json_roundtrip_counterexample :
    JSON.parse (JSON.stringify [(['k'], ['{'])]) = none ∧
    (none : Option (List (List Char × List Char))) ≠ some [(['k'], ['{'])] := by
  constructor
  · decide
  · decide

/-- C2 (amended): for every string-to-string map — modelled as an
association list with strictly increasing keys, the iteration order of
`std::map` — in which no value begins with `{` or `[`,
`JSON::parse(JSON::stringify(m))` returns exactly the original map.  In
particular the round-trip holds when a value contains a double quote, a
backslash, or a newline character (see the witness). -/
theorem json_roundtrip_amended (m : List (List Char × List Char))
    (hs : JSON.sortedKeys m) (hv : ∀ kv ∈ m, JSON.bracey kv.2 = false) :
    JSON.parse (JSON.stringify m) = some m := by
  cases m with
  | nil => rfl
  | cons kv rest =>
    obtain ⟨k, v⟩ := kv
    have hne : JSON.stringify ((k, v) :: rest) =
        '{' :: (JSON.stringify_entries ((k, v) :: rest) true ++ ['}']) := by
      simp [JSON.stringify]
    rw [hne]
    have e1 : JSON.stringify_entries ((k, v) :: rest) true ++ ['}'] =
        '"' :: (JSON.escape_string k ++ ('"' :: (':' :: (JSON.stringify_value v ++
          (JSON.stringify_entries rest false ++ ['}']))))) := by
      simp [JSON.stringify_entries, List.append_assoc]
    have hfuel : ((k, v) :: rest).length <
        (JSON.stringify_entries ((k, v) :: rest) true ++ ['}']).length + 1 := by
      have := JSON.stringify_entries_length ((k, v) :: rest) true
      simp only [List.length_append, List.length_cons, List.length_nil] at this ⊢
      omega
    have hent := JSON.entries_rt ((k, v) :: rest)
      ((JSON.stringify_entries ((k, v) :: rest) true ++ ['}']).length + 1) []
      (by simp) hfuel hv
    rw [e1]
    simp only [JSON.parse,
      JSON.skip_whitespace_cons (by decide : JSON.isspace '{' = false), if_pos rfl,
      JSON.skip_whitespace_cons (by decide : JSON.isspace '"' = false),
      if_neg (by decide : ¬('"' : Char) = '}')]
    rw [e1] at hent
    rw [hent, JSON.insertAll_sorted ((k, v) :: rest) [] hs (by simp)]
    simp

/-- C2, witness: a concrete two-key map whose value contains a double
quote, a backslash and a newline round-trips unchanged. -/
theorem json_roundtrip_witness :
    JSON.parse (JSON.stringify
      [(['a'], ['4', '2']), (['k'], ['x', '"', '\\', '\n', 'y'])]) =
      some [(['a'], ['4', '2']), (['k'], ['x', '"', '\\', '\n', 'y'])] :=
  json_roundtrip_amended
    [(['a'], ['4', '2']), (['k'], ['x', '"', '\\', '\n', 'y'])]
    (by constructor
        · intro b hb
          simp only [List.mem_singleton] at hb
          subst hb
          decide
        · simp [JSON.sortedKeys])
    (by intro kv hkv
        rcases List.mem_cons.mp hkv with h | h
        · subst h; decide
        · simp only [List.mem_singleton] at h
          subst h; decide)

/-- C3, counterexample: the claim fails as stated.  The vertical-tab
control character U+000B is not replaced by an escape sequence by
`escape_string`; it is passed through unchanged. -/
theorem json_escape_counterexample :
    JSON.escape_string ['\x0b'] = ['\x0b'] := by decide

/-- C3 (amended): `escape_string` processes the input character by
character; `"` and `\` and exactly the five control characters `\n`, `\r`,
`\t`, `\b` (U+0008), `\f` (U+000C) are replaced by their two-character
escape sequences (newline becomes the two characters `\` `n`), and every
other character — including every other control character — is emitted
unchanged. -/
theorem json_escape_amended :
    (∀ s : List Char, JSON.escape_string s = (s.map JSON.escape_char).flatten) ∧
    JSON.escape_char '"' = ['\\', '"'] ∧
    JSON.escape_char '\\' = ['\\', '\\'] ∧
    JSON.escape_char '\n' = ['\\', 'n'] ∧
    JSON.escape_char '\r' = ['\\', 'r'] ∧
    JSON.escape_char '\t' = ['\\', 't'] ∧
    JSON.escape_char '\x08' = ['\\', 'b'] ∧
    JSON.escape_char '\x0c' = ['\\', 'f'] ∧
    (∀ c : Char, c ≠ '"' → c ≠ '\\' → c ≠ '\n' → c ≠ '\r' → c ≠ '\t' →
      c ≠ '\x08' → c ≠ '\x0c' → JSON.escape_char c = [c]) := by
  refine ⟨JSON.escape_string_eq_join, by decide, by decide, by decide, by decide,
    by decide, by decide, by decide, ?_⟩
  intro c h1 h2 h3 h4 h5 h6 h7
  simp [JSON.escape_char, h1, h2, h3, h4, h5, h6, h7]

/-- C3, witness: instantiating the non-special-character clause at `'a'`
and the per-string clause at a concrete string. -/
theorem json_escape_amended_witness :
    JSON.escape_char 'a' = ['a'] ∧
    JSON.escape_string ['a', '\n'] = (['a', '\n'].map JSON.escape_char).flatten :=
  ⟨json_escape_amended.2.2.2.2.2.2.2.2 'a' (by decide) (by decide) (by decide)
      (by decide) (by decide) (by decide) (by decide),
    json_escape_amended.1 ['a', '\n']⟩

/-- C10: how `stringify` renders tokens.  A value equal to `true`, `false`
or `null`, or accepted by `is_number`, is emitted bare (without quotes); a
value beginning with `{` or `[` is emitted verbatim; every other value is
emitted double-quoted with `escape_string` applied; keys are always quoted
and escaped; and a value that merely looks like a primitive (the string
"true", the string "42") therefore appears in the output as a bare
non-string JSON token. -/
theorem json_stringify_tokens :
    (∀ v, (v = JSON.tru ∨ v = JSON.fls ∨ v = JSON.nul ∨ JSON.is_number v = true) →
      JSON.stringify_value v = v) ∧
    (∀ (c : Char) (rest : List Char), (c = '{' ∨ c = '[') →
      JSON.stringify_value (c :: rest) = c :: rest) ∧
    (∀ v, ¬(v = JSON.tru ∨ v = JSON.fls ∨ v = JSON.nul ∨ JSON.is_number v = true) →
      JSON.bracey v = false →
      JSON.stringify_value v = '"' :: JSON.escape_string v ++ ['"']) ∧
    (∀ m : List (List Char × List Char),
      JSON.stringify m = if m = [] then ['{', '}']
        else '{' :: JSON.stringify_entries m true ++ ['}']) ∧
    (∀ (k v : List Char) (rest : List (List Char × List Char)),
      JSON.stringify_entries ((k, v) :: rest) true =
        '"' :: JSON.escape_string k ++ ['"', ':'] ++ JSON.stringify_value v ++
          JSON.stringify_entries rest false) ∧
    JSON.stringify [(['k'], JSON.tru)] =
      ['{', '"', 'k', '"', ':', 't', 'r', 'u', 'e', '}'] ∧
    JSON.stringify [(['k'], ['4', '2'])] =
      ['{', '"', 'k', '"', ':', '4', '2', '}'] := by
  refine ⟨?_, ?_, ?_, ?_, ?_, by decide, by decide⟩
  · intro v hv
    rw [JSON.stringify_value, if_pos hv]
  · intro c rest hc
    exact JSON.stringify_value_brace rest hc
  · intro v h1 h2
    have hbr : ¬(v.head? = some '{' ∨ v.head? = some '[') := by
      simp only [JSON.bracey, Bool.or_eq_false_iff, beq_eq_false_iff_ne] at h2
      rintro (h | h)
      · exact h2.1 h
      · exact h2.2 h
    rw [JSON.stringify_value, if_neg h1, if_neg hbr]
  · intro m
    rw [JSON.stringify]
  · intro k v rest
    simp [JSON.stringify_entries, List.append_assoc]

/-- C10, witness: the three conditional clauses instantiated at concrete
values — the value "true" emitted bare, "{x}" emitted verbatim, "hi"
quoted and escaped. -/
theorem json_stringify_tokens_witness :
    JSON.stringify_value ['t', 'r', 'u', 'e'] = ['t', 'r', 'u', 'e'] ∧
    JSON.stringify_value ['{', 'x', '}'] = ['{', 'x', '}'] ∧
    JSON.stringify_value ['h', 'i'] = ['"', 'h', 'i', '"'] := by
  refine ⟨json_stringify_tokens.1 ['t', 'r', 'u', 'e'] (Or.inl rfl), ?_, ?_⟩
  · exact json_stringify_tokens.2.1 '{' ['x', '}'] (Or.inl rfl)
  · have h := json_stringify_tokens.2.2.1 ['h', 'i'] (by decide) (by decide)
    rw [h]
    decide

end JSONClaims

namespace Logging

theorem interpolate_nil : ∀ msg : List Char, interpolate msg [] = msg
  | [] => rfl
  | [_] => rfl
  | c1 :: c2 :: rest => by
    by_cases h : c1 = '{' ∧ c2 = '}'
    · simp only [interpolate, if_pos h]
      rw [interpolate_nil rest]
    · simp only [interpolate, if_neg h]
      rw [interpolate_nil (c2 :: rest)]

theorem interpolate_step : ∀ (pre post x : List Char) (args : List (List Char)),
    containsSeq ['{', '}'] pre = false →
    interpolate (pre ++ '{' :: '}' :: post) (x :: args) =
      pre ++ (x ++ interpolate post args)
  | [], post, x, args, _ => by
    simp [interpolate]
  | [c], post, x, args, _ => by
    have hc : ¬(c = '{' ∧ ('{' : Char) = '}') := by
      rintro ⟨_, h2⟩
      exact absurd h2 (by decide)
    simp only [List.cons_append, List.nil_append, interpolate, if_neg hc]
    simp
  | c1 :: c2 :: pre2, post, x, args, h => by
    simp only [containsSeq, Bool.or_eq_false_iff] at h
    obtain ⟨hpf, hpf2, hrest⟩ := h
    have h1 : ¬(c1 = '{' ∧ c2 = '}') := by
      rintro ⟨ha, hb⟩
      subst ha
      subst hb
      simp [List.isPrefixOf] at hpf
    have h2 : containsSeq ['{', '}'] (c2 :: pre2) = false := by
      simp only [containsSeq, Bool.or_eq_false_iff]
      exact ⟨hpf2, hrest⟩
    simp only [List.cons_append, List.append_eq, interpolate, if_neg h1]
    have hstep := interpolate_step (c2 :: pre2) post x args h2
    simp only [List.cons_append] at hstep
    rw [hstep]

theorem basename_aux_no_slash : ∀ (p acc : List Char), '/' ∉ acc →
    '/' ∉ p.foldl (fun a c => if c = '/' then [] else a ++ [c]) acc
  | [], _, h => h
  | c :: rest, acc, h => by
    by_cases hc : c = '/'
    · simp only [List.foldl_cons, if_pos hc]
      exact basename_aux_no_slash rest [] (by simp)
    · simp only [List.foldl_cons, if_neg hc]
      refine basename_aux_no_slash rest (acc ++ [c]) ?_
      intro hmem
      rcases List.mem_append.mp hmem with h2 | h2
      · exact h h2
      · simp only [List.mem_singleton] at h2
        exact hc h2.symm

theorem degraded_writes : ∀ (lines : List (List Char)) (s : RotState),
    s.degraded = true →
    lines.foldl RotState.write s = { s with fallback := s.fallback ++ lines }
  | [], s, _ => by simp
  | l :: rest, s, h => by
    simp only [List.foldl_cons]
    rw [show RotState.write s l = { s with fallback := s.fallback ++ [l] } from by
      simp [RotState.write, h]]
    rw [degraded_writes rest { s with fallback := s.fallback ++ [l] } h]
    simp

theorem write_retention (s : RotState) (l : List Char) :
    (s.write l).retention = s.retention := by
  by_cases hdeg : s.degraded
  · simp [RotState.write, hdeg]
  · by_cases hrot : s.maxSize < s.bytes + l.length
    · simp [RotState.write, hdeg, hrot, RotState.rotate]
    · simp [RotState.write, hdeg, hrot]

theorem write_backups_bound (s : RotState) (l : List Char)
    (h : s.backups.length ≤ s.retention) : (s.write l).backups.length ≤ s.retention := by
  by_cases hdeg : s.degraded
  · simpa [RotState.write, hdeg] using h
  · by_cases hrot : s.maxSize < s.bytes + l.length
    · simp only [RotState.write, hdeg, Bool.false_eq_true, if_false, if_pos hrot,
        RotState.rotate]
      exact le_trans (List.length_take_le _ _) (le_refl _)
    · simpa [RotState.write, hdeg, hrot] using h

theorem foldl_backups_bound : ∀ (lines : List (List Char)) (s : RotState),
    s.backups.length ≤ s.retention →
    (lines.foldl RotState.write s).backups.length ≤
      (lines.foldl RotState.write s).retention
  | [], _, h => h
  | l :: rest, s, h => by
    simp only [List.foldl_cons]
    refine foldl_backups_bound rest _ ?_
    rw [write_retention]
    exact write_backups_bound s l h

end Logging

namespace Logging

theorem foldl_retention : ∀ (lines : List (List Char)) (s : RotState),
    (lines.foldl RotState.write s).retention = s.retention
  | [], _ => rfl
  | l :: rest, s => by
    simp only [List.foldl_cons]
    rw [foldl_retention rest, write_retention]

end Logging

section LoggingClaims

/-- C1 (spec-modelled): for levels L1 < L2 and any message, a logger whose
minimum level is L2 produces no output — the output trace is empty, so no
formatted line is ever produced — for a call at L1, and produces exactly
the formatted line for a call at any level at or above L2. -/
theorem logger_level_filtering (l1 l2 : Logging.LogLevel) (msg : List Char)
    (h : l1.rank < l2.rank) :
    Logging.Logger.log ⟨l2⟩ l1 msg = [] ∧
    ∀ l : Logging.LogLevel, l2.rank ≤ l.rank →
      Logging.Logger.log ⟨l2⟩ l msg =
        [Logging.human_format none none l msg none 0] := by
  constructor
  · simp [Logging.Logger.log, h]
  · intro l hl
    have h2 : ¬l.rank < l2.rank := by omega
    simp [Logging.Logger.log, h2]

/-- C1, witness: INFO is filtered under a WARNING minimum; ERROR passes. -/
theorem logger_level_filtering_witness :
    Logging.Logger.log ⟨Logging.LogLevel.warning⟩ Logging.LogLevel.info ['m'] = [] ∧
    Logging.Logger.log ⟨Logging.LogLevel.warning⟩ Logging.LogLevel.error ['m'] =
      [Logging.human_format none none Logging.LogLevel.error ['m'] none 0] :=
  ⟨(logger_level_filtering .info .warning ['m'] (by decide)).1,
   (logger_level_filtering .info .warning ['m'] (by decide)).2 .error (by decide)⟩

/-- C4 (spec-modelled): a RotatingFileLogger built on an unwritable path
starts Degraded; construction and every write are total functions (nothing
is thrown), each written line is appended in order to the fallback error
stream, and the file (live and backups) is never touched. -/
theorem rotating_unwritable_fallback (maxSize retention : Nat)
    (lines : List (List Char)) :
    (Logging.RotatingFileLogger.mk false maxSize retention).degraded = true ∧
    (lines.foldl Logging.RotState.write
      (Logging.RotatingFileLogger.mk false maxSize retention)).fallback = lines ∧
    (lines.foldl Logging.RotState.write
      (Logging.RotatingFileLogger.mk false maxSize retention)).base = [] ∧
    (lines.foldl Logging.RotState.write
      (Logging.RotatingFileLogger.mk false maxSize retention)).backups = [] := by
  have h := Logging.degraded_writes lines
    (Logging.RotatingFileLogger.mk false maxSize retention) rfl
  refine ⟨rfl, ?_, ?_, ?_⟩ <;> rw [h] <;> simp [Logging.RotatingFileLogger.mk]

/-- C5 (spec-modelled): the size trigger is evaluated before each write:
when accumulated bytes plus the line's length would exceed the maximum,
the writer rotates first and then writes, so the triggering line is the
only line of the freshly opened base file and the old live content moved
to the backups; otherwise the line is appended without rotation. -/
theorem rotating_size_trigger (s : Logging.RotState) (line : List Char)
    (hdeg : s.degraded = false) :
    (s.maxSize < s.bytes + line.length →
      (s.write line).base = [line] ∧
      (s.write line).backups = (s.base :: s.backups).take s.retention ∧
      (s.write line).bytes = line.length) ∧
    (¬s.maxSize < s.bytes + line.length →
      (s.write line).base = s.base ++ [line] ∧
      (s.write line).backups = s.backups ∧
      (s.write line).bytes = s.bytes + line.length) := by
  constructor
  · intro hrot
    refine ⟨?_, ?_, ?_⟩ <;>
      simp [Logging.RotState.write, hdeg, hrot, Logging.RotState.rotate]
  · intro hrot
    refine ⟨?_, ?_, ?_⟩ <;> simp [Logging.RotState.write, hdeg, hrot]

/-- C5, witness: max size 3, two bytes already written; a two-byte line
triggers rotation and lands alone in the fresh base file. -/
theorem rotating_size_trigger_witness :
    (Logging.RotState.write ⟨false, [['a', 'b']], [], 2, 3, 2, []⟩ ['c', 'd']).base =
      [['c', 'd']] ∧
    (Logging.RotState.write ⟨false, [['a', 'b']], [], 2, 3, 2, []⟩ ['c', 'd']).backups =
      [[['a', 'b']]] := by
  have h := (rotating_size_trigger ⟨false, [['a', 'b']], [], 2, 3, 2, []⟩ ['c', 'd']
    rfl).1 (by decide)
  exact ⟨h.1, by rw [h.2.1]; rfl⟩

/-- C6 (spec-modelled): rotation shifts the live file onto the backup
chain and truncates it to the retention count N (deleting anything
beyond), each backup being the content of a former live file; the write
trigger produces exactly that shift; and after any sequence of writes on a
freshly constructed writer, at most N backups exist. -/
theorem rotating_retention_backups :
    (∀ s : Logging.RotState,
      s.rotate.backups = (s.base :: s.backups).take s.retention) ∧
    (∀ (s : Logging.RotState) (line : List Char), s.degraded = false →
      (s.write line).backups =
        if s.maxSize < s.bytes + line.length
        then (s.base :: s.backups).take s.retention
        else s.backups) ∧
    (∀ (lines : List (List Char)) (writable : Bool) (maxSize retention : Nat),
      (lines.foldl Logging.RotState.write
        (Logging.RotatingFileLogger.mk writable maxSize retention)).backups.length ≤
        retention) := by
  refine ⟨fun s => rfl, ?_, ?_⟩
  · intro s line hdeg
    by_cases hrot : s.maxSize < s.bytes + line.length
    · simp [Logging.RotState.write, hdeg, hrot, Logging.RotState.rotate]
    · simp [Logging.RotState.write, hdeg, hrot]
  · intro lines writable maxSize retention
    have h := Logging.foldl_backups_bound lines
      (Logging.RotatingFileLogger.mk writable maxSize retention)
      (by simp [Logging.RotatingFileLogger.mk])
    rw [Logging.foldl_retention] at h
    exact h

/-- C6, witness: a writer with retention 1 holding one backup; a
rotation-triggering write keeps only the most recent backup. -/
theorem rotating_retention_backups_witness :
    (Logging.RotState.write ⟨false, [['a']], [[['z']]], 1, 1, 1, []⟩ ['b', 'c']).backups =
      [[['a']]] := by
  have h := rotating_retention_backups.2.1 ⟨false, [['a']], [[['z']]], 1, 1, 1, []⟩
    ['b', 'c'] rfl
  rw [h]
  decide

/-- C7 (spec-modelled): LogLevel consists of exactly the six values
TRACE < DEBUG < INFO < WARNING < ERROR < FATAL; the rank order is total,
it is the order the level filter uses (output is produced iff the call
level is at or above the configured minimum), and each of the six leveled
convenience calls is sugar over `log` at its level. -/
theorem loglevel_six_total_order :
    (∀ l : Logging.LogLevel, l = .trace ∨ l = .debug ∨ l = .info ∨ l = .warning ∨
      l = .error ∨ l = .fatal) ∧
    (∀ a b : Logging.LogLevel, a = b ∨ a.rank < b.rank ∨ b.rank < a.rank) ∧
    (Logging.LogLevel.trace.rank < Logging.LogLevel.debug.rank ∧
     Logging.LogLevel.debug.rank < Logging.LogLevel.info.rank ∧
     Logging.LogLevel.info.rank < Logging.LogLevel.warning.rank ∧
     Logging.LogLevel.warning.rank < Logging.LogLevel.error.rank ∧
     Logging.LogLevel.error.rank < Logging.LogLevel.fatal.rank) ∧
    (∀ (cfg : Logging.LoggerConfig) (level : Logging.LogLevel) (msg : List Char),
      Logging.Logger.log cfg level msg ≠ [] ↔ cfg.min_level.rank ≤ level.rank) ∧
    (∀ (cfg : Logging.LoggerConfig) (msg : List Char),
      Logging.Logger.trace cfg msg = Logging.Logger.log cfg .trace msg ∧
      Logging.Logger.debug cfg msg = Logging.Logger.log cfg .debug msg ∧
      Logging.Logger.info cfg msg = Logging.Logger.log cfg .info msg ∧
      Logging.Logger.warning cfg msg = Logging.Logger.log cfg .warning msg ∧
      Logging.Logger.error cfg msg = Logging.Logger.log cfg .error msg ∧
      Logging.Logger.fatal cfg msg = Logging.Logger.log cfg .fatal msg) := by
  refine ⟨?_, ?_, by decide, ?_, ?_⟩
  · intro l
    cases l <;> simp
  · intro a b
    cases a <;> cases b <;> simp [Logging.LogLevel.rank]
  · intro cfg level msg
    by_cases hlt : level.rank < cfg.min_level.rank
    · simp only [Logging.Logger.log, if_pos hlt]
      constructor
      · intro h
        exact absurd rfl h
      · intro h
        omega
    · simp only [Logging.Logger.log, if_neg hlt]
      constructor
      · intro _
        omega
      · intro _
        simp
  · intro cfg msg
    exact ⟨rfl, rfl, rfl, rfl, rfl, rfl⟩

/-- C7, witness: the filtering clause instantiated concretely — an ERROR
call passes a WARNING minimum and produces output. -/
theorem loglevel_six_total_order_witness :
    Logging.Logger.log ⟨Logging.LogLevel.warning⟩ Logging.LogLevel.error ['m'] ≠ [] :=
  (loglevel_six_total_order.2.2.2.1 ⟨Logging.LogLevel.warning⟩
    Logging.LogLevel.error ['m']).mpr (by decide)

/-- C8 (spec-modelled): `basename` output never contains a directory
separator, and both built-in formatters, fed file="/a/b/c/file.ext" and
line=42, embed "file.ext:42" (the JSON formatter embeds the basename and
the line as separate fields) and never the directory prefix "/a/b/c/". -/
theorem formatter_basename_only :
    (∀ p : List Char, '/' ∉ Logging.basename p) ∧
    Logging.containsSeq ['f', 'i', 'l', 'e', '.', 'e', 'x', 't', ':', '4', '2']
      (Logging.human_format none none .info ['T', 'e', 's', 't']
        (some ['/', 'a', '/', 'b', '/', 'c', '/', 'f', 'i', 'l', 'e', '.', 'e', 'x', 't'])
        42) = true ∧
    Logging.containsSeq ['/', 'a', '/', 'b', '/', 'c', '/']
      (Logging.human_format none none .info ['T', 'e', 's', 't']
        (some ['/', 'a', '/', 'b', '/', 'c', '/', 'f', 'i', 'l', 'e', '.', 'e', 'x', 't'])
        42) = false ∧
    Logging.containsSeq ['f', 'i', 'l', 'e', '.', 'e', 'x', 't']
      (Logging.json_format .info ['T', 'e', 's', 't']
        (some ['/', 'a', '/', 'b', '/', 'c', '/', 'f', 'i', 'l', 'e', '.', 'e', 'x', 't'])
        42) = true ∧
    Logging.containsSeq ['/', 'a', '/', 'b', '/', 'c', '/']
      (Logging.json_format .info ['T', 'e', 's', 't']
        (some ['/', 'a', '/', 'b', '/', 'c', '/', 'f', 'i', 'l', 'e', '.', 'e', 'x', 't'])
        42) = false := by
  refine ⟨?_, by decide, by decide, by decide, by decide⟩
  intro p
  exact Logging.basename_aux_no_slash p [] (by simp)

/-- C8, witness: the no-directory-separator clause instantiated at a
concrete path. -/
theorem formatter_basename_only_witness :
    '/' ∉ Logging.basename ['/', 'a', '/', 'b', '.', 'c'] :=
  formatter_basename_only.1 ['/', 'a', '/', 'b', '.', 'c']

/-- C9 (spec-modelled): with no arguments every placeholder stays literal
(so when fewer arguments than placeholders are supplied the unmatched
trailing placeholders survive verbatim); the first placeholder after a
placeholder-free prefix is replaced by the next argument, recursively
matching the first min(k, n) placeholders in order; interpolation is a
total function — a count mismatch never raises. -/
theorem placeholder_interpolation :
    (∀ msg : List Char, Logging.interpolate msg [] = msg) ∧
    (∀ (pre post x : List Char) (args : List (List Char)),
      Logging.containsSeq ['{', '}'] pre = false →
      Logging.interpolate (pre ++ '{' :: '}' :: post) (x :: args) =
        pre ++ (x ++ Logging.interpolate post args)) ∧
    Logging.interpolate ['a', ' ', '{', '}', ' ', '{', '}'] [['x'], ['y', 'z']] =
      ['a', ' ', 'x', ' ', 'y', 'z'] ∧
    Logging.interpolate ['a', '{', '}', 'b', '{', '}'] [['x']] =
      ['a', 'x', 'b', '{', '}'] :=
  ⟨Logging.interpolate_nil, Logging.interpolate_step, by decide, by decide⟩

/-- C9, witness: the substitution clause instantiated at a concrete
message, one placeholder consumed, the remaining message interpolated with
no arguments left. -/
theorem placeholder_interpolation_witness :
    Logging.interpolate (['a', 'b'] ++ '{' :: '}' :: ['c']) [['z']] =
      ['a', 'b'] ++ (['z'] ++ Logging.interpolate ['c'] []) :=
  placeholder_interpolation.2.1 ['a', 'b'] ['c'] ['z'] [] (by decide)

end LoggingClaims
